import Mathlib

/-!
Verification development for the mouse/keyboard recorder-replayer
(`RecorderPlayer` in the Python source).  The Python program stores events
as JSON-like dicts; the capture callbacks write them, `_perform_event` and
the key/button helpers read them, and `play` schedules them on a background
thread.  Below is a shallow embedding of that core: JSON values, records
(ordered key/value maps), the event codec, the suppression counter, the
session-state API, and an idealized-clock model of the playback loop.
-/

namespace AutoClicker

/-- JSON-like field values as Python's `json` module produces them:
numbers (modelled as rationals), strings, booleans and `None`/`null`. -/
inductive JVal where
  | num (q : ℚ)
  | str (s : String)
  | bool (b : Bool)
  | null
deriving DecidableEq

/-- A record is an ordered field map, as stored in `self.events`. -/
abbrev Record := List (String × JVal)

/-- `ev.get(k)`: first binding of the key, `None` if absent. -/
def rget (r : Record) (k : String) : Option JVal :=
  (r.find? (fun p => p.1 == k)).map Prod.snd

/-- Python truthiness of a field value (`if pressed:`, `if btn_str`). -/
def truthy : JVal → Bool
  | JVal.num q => !(decide (q = 0))
  | JVal.str s => !(decide (s = ""))
  | JVal.bool b => b
  | JVal.null => false

/-- Python falsiness of `ev.get(...)`: absent (`None`), `null`, `""`, `0`,
`False` are all falsy (`if not k: return`). -/
def falsyJ : Option JVal → Bool
  | none => true
  | some v => !(truthy v)

/-- Numeric reading of a field value.  Python arithmetic accepts ints,
floats and bools (`True == 1`); anything else raises `TypeError`. -/
def jnum : JVal → Option ℚ
  | JVal.num q => some q
  | JVal.bool b => some (if b then 1 else 0)
  | _ => none

/-- `ev.get("time", 0)` read as a number; `none` models the `TypeError`
that a non-numeric time would raise in the playback arithmetic. -/
def recTimeQ (r : Record) : Option ℚ :=
  jnum ((rget r "time").getD (JVal.num 0))

/-- `pynput.mouse.Button` members reachable from the source. -/
inductive MButton where
  | left
  | right
  | middle
deriving DecidableEq

/-- `str(button)` drops the leading `Button.`; this is the member name. -/
def MButton.bname : MButton → String
  | MButton.left => "left"
  | MButton.right => "right"
  | MButton.middle => "middle"

/-- `getattr(mouse.Button, name, mouse.Button.left)`: resolve a button
member name, silently defaulting to `Button.left` when unknown. -/
def buttonFromName (n : String) : MButton :=
  if n = "left" then MButton.left
  else if n = "right" then MButton.right
  else if n = "middle" then MButton.middle
  else MButton.left

/-- `btn_str.split(".")[-1]`: the part after the last dot (the whole
string when it has no dot). -/
def lastDotComponent (s : String) : String :=
  String.mk ((s.data.reverse.takeWhile (fun c => !(c == '.'))).reverse)

/-- A keyboard key as the two-variant token: a printable character
(`KeyCode.char`) or a named key (`str(key)` of a `Key` member). -/
inductive KeyToken where
  | char (c : Char)
  | named (n : String)
deriving DecidableEq

/-- Member names of `pynput.keyboard.Key` (the names `getattr(Key, name)`
resolves in `_press_key_from_string`). -/
def keyNames : List String :=
  ["alt", "alt_l", "alt_r", "alt_gr", "backspace", "caps_lock",
   "cmd", "cmd_l", "cmd_r", "ctrl", "ctrl_l", "ctrl_r", "delete",
   "down", "end", "enter", "esc",
   "f1", "f2", "f3", "f4", "f5", "f6", "f7", "f8", "f9", "f10",
   "f11", "f12", "f13", "f14", "f15", "f16", "f17", "f18", "f19", "f20",
   "home", "insert", "left", "media_next", "media_play_pause",
   "media_previous", "media_volume_down", "media_volume_mute",
   "media_volume_up", "menu", "num_lock", "page_down", "page_up",
   "pause", "print_screen", "right", "scroll_lock",
   "shift", "shift_l", "shift_r", "space", "tab", "up"]

/-- The single-quote character (used by the `"'a'"` compatibility parse). -/
def quoteChar : Char := Char.ofNat 39

/-- The capture encoding of a key (`on_press`/`on_release`):
`getattr(key, "char", str(key))` — the bare character for a printable
key, the dotted `Key.<name>` string for a named key. -/
def encodeKey : KeyToken → String
  | KeyToken.char c => String.singleton c
  | KeyToken.named n => "Key." ++ n

/-- The in-memory event, one per hook callback variant. -/
inductive Event where
  | mouseMove (time x y : ℚ)
  | mouseClick (time x y : ℚ) (button : MButton) (pressed : Bool)
  | mouseScroll (time x y dx dy : ℚ)
  | keyPress (time : ℚ) (key : KeyToken)
  | keyRelease (time : ℚ) (key : KeyToken)
deriving DecidableEq

/-- The record each capture callback appends to `self.events`. -/
def encodeEvent : Event → Record
  | Event.mouseMove t x y =>
      [("type", JVal.str "mouse_move"), ("time", JVal.num t),
       ("x", JVal.num x), ("y", JVal.num y)]
  | Event.mouseClick t x y b p =>
      [("type", JVal.str "mouse_click"), ("time", JVal.num t),
       ("x", JVal.num x), ("y", JVal.num y),
       ("button", JVal.str ("Button." ++ b.bname)), ("pressed", JVal.bool p)]
  | Event.mouseScroll t x y dx dy =>
      [("type", JVal.str "mouse_scroll"), ("time", JVal.num t),
       ("x", JVal.num x), ("y", JVal.num y),
       ("dx", JVal.num dx), ("dy", JVal.num dy)]
  | Event.keyPress t k =>
      [("type", JVal.str "key_press"), ("time", JVal.num t),
       ("key", JVal.str (encodeKey k))]
  | Event.keyRelease t k =>
      [("type", JVal.str "key_release"), ("time", JVal.num t),
       ("key", JVal.str (encodeKey k))]

/-- Fallback parse of a key string (`_press_key_from_string` after the
`Key.` branch failed or did not apply): accept the quoted form
`'c'` with a single inner character, else a bare single character;
anything else makes `kb_ctrl.press` raise, which is swallowed (`none`). -/
def decodeKeyPlain (cs : List Char) : Option KeyToken :=
  if 2 ≤ cs.length ∧ cs.head? = some quoteChar ∧ cs.getLast? = some quoteChar then
    match (cs.drop 1).dropLast with
    | [c] => some (KeyToken.char c)
    | _ => none
  else
    match cs with
    | [c] => some (KeyToken.char c)
    | _ => none

/-- Parse of a non-empty key string: a `Key.`-prefixed string whose
member name resolves yields the named key; an unresolvable `Key.` name
falls through to the plain parse (as the failed `getattr` does). -/
def decodeKeyChars (cs : List Char) : Option KeyToken :=
  match cs with
  | k :: e :: y :: d :: rest =>
      if k = 'K' ∧ e = 'e' ∧ y = 'y' ∧ d = '.' then
        (if String.mk rest ∈ keyNames then some (KeyToken.named (String.mk rest))
         else decodeKeyPlain cs)
      else decodeKeyPlain cs
  | _ => decodeKeyPlain cs

/-- Which key `_press_key_from_string`/`_release_key_from_string` end up
pressing for a given `ev.get("key")` value: `none` means the event is
skipped (falsy value, non-string value, or every press attempt raised). -/
def decodeKeyStr (k? : Option JVal) : Option KeyToken :=
  if falsyJ k? then none
  else
    match k? with
    | some (JVal.str k) => decodeKeyChars k.data
    | _ => none

/-- The `Event` a record denotes under the playback engine's reading of
its fields (`_perform_event` field extraction plus the key/button string
parsing); `none` when that reading does not produce a full event. -/
def decodeEvent (r : Record) : Option Event :=
  match rget r "type" with
  | some (JVal.str t) =>
      if t = "mouse_move" then
        match recTimeQ r, (rget r "x").bind jnum, (rget r "y").bind jnum with
        | some tm, some x, some y => some (Event.mouseMove tm x y)
        | _, _, _ => none
      else if t = "mouse_click" then
        match recTimeQ r, (rget r "x").bind jnum, (rget r "y").bind jnum,
              (rget r "button").getD (JVal.str "") with
        | some tm, some x, some y, JVal.str bs =>
            some (Event.mouseClick tm x y
              (buttonFromName (if bs = "" then "left" else lastDotComponent bs))
              (truthy ((rget r "pressed").getD (JVal.bool true))))
        | _, _, _, _ => none
      else if t = "mouse_scroll" then
        match recTimeQ r, (rget r "x").bind jnum, (rget r "y").bind jnum,
              jnum ((rget r "dx").getD (JVal.num 0)),
              jnum ((rget r "dy").getD (JVal.num 0)) with
        | some tm, some x, some y, some dx, some dy =>
            some (Event.mouseScroll tm x y dx dy)
        | _, _, _, _, _ => none
      else if t = "key_press" then
        (recTimeQ r).bind (fun tm =>
          (decodeKeyStr (rget r "key")).map (fun k => Event.keyPress tm k))
      else if t = "key_release" then
        (recTimeQ r).bind (fun tm =>
          (decodeKeyStr (rget r "key")).map (fun k => Event.keyRelease tm k))
      else none
  | _ => none

/-- A native input-injection call issued during playback. -/
inductive Prim where
  | setPos (x y : ℚ)
  | btnPress (b : MButton)
  | btnRelease (b : MButton)
  | scroll (dx dy : ℚ)
  | keyDown (k : KeyToken)
  | keyUp (k : KeyToken)
deriving DecidableEq

/-- An exception escaping `_perform_event` (caught and ignored by the
per-event `try` in the playback loop). -/
inductive PyErr where
  | typeError
deriving DecidableEq

/-- The optional cursor repositioning shared by the mouse branches:
skipped when `x` or `y` is absent/`None`, raising when non-numeric. -/
def posPrims (r : Record) : Except PyErr (List Prim) :=
  match rget r "x", rget r "y" with
  | some xv, some yv =>
      if xv = JVal.null ∨ yv = JVal.null then Except.ok []
      else
        match jnum xv, jnum yv with
        | some x, some y => Except.ok [Prim.setPos x y]
        | _, _ => Except.error PyErr.typeError
  | _, _ => Except.ok []

/-- `_perform_event(ev)`: the injections one record produces, or the
exception it lets escape.  Records with an unknown or missing type tag
fall through every branch and produce nothing.  The `mouse_click`
branch resolves the button with `getattr(mouse.Button, name, Button.left)`
(defaulting, never skipping); the key branches press whatever
`_press_key_from_string` parses, or nothing. -/
def performEvent (r : Record) : Except PyErr (List Prim) :=
  match rget r "type" with
  | some (JVal.str t) =>
      if t = "mouse_move" then posPrims r
      else if t = "mouse_click" then
        let bv := (rget r "button").getD (JVal.str "")
        let pv := (rget r "pressed").getD (JVal.bool true)
        (if truthy bv then
           (match bv with
            | JVal.str bs => Except.ok (buttonFromName (lastDotComponent bs))
            | _ => Except.error PyErr.typeError)
         else Except.ok MButton.left).bind (fun btn =>
          (posPrims r).map (fun ps =>
            ps ++ [if truthy pv then Prim.btnPress btn else Prim.btnRelease btn]))
      else if t = "mouse_scroll" then
        match jnum ((rget r "dx").getD (JVal.num 0)),
              jnum ((rget r "dy").getD (JVal.num 0)) with
        | some dx, some dy =>
            (posPrims r).map (fun ps => ps ++ [Prim.scroll dx dy])
        | _, _ => Except.error PyErr.typeError
      else if t = "key_press" then
        Except.ok ((decodeKeyStr (rget r "key")).elim [] (fun k => [Prim.keyDown k]))
      else if t = "key_release" then
        Except.ok ((decodeKeyStr (rget r "key")).elim [] (fun k => [Prim.keyUp k]))
      else Except.ok []
  | _ => Except.ok []

/-- Session state: the mutable fields of `RecorderPlayer` the API
operations read and write (`recording`, `playing`, `events`, and the
`stop_play_event` threading flag). -/
structure RP where
  recording : Bool
  playing : Bool
  events : List Record
  stopEvent : Bool
deriving DecidableEq

/-- The freshly constructed session (`__init__`). -/
def RP.init : RP :=
  { recording := false, playing := false, events := [], stopEvent := false }

/-- Errors the API raises (`RuntimeError` with the respective message). -/
inductive RPErr where
  | invalidState
  | emptyLog
deriving DecidableEq

/-- Result of an API call: the session state after the call together
with the raised error or the returned value. -/
structure ApiOut (α : Type) where
  state : RP
  result : Except RPErr α

/-- `start_recording()`: refuse while playing, else clear the log and
enter Recording (hook installation abstracted away). -/
def RP.startRecording (s : RP) : ApiOut Unit :=
  if s.playing then ⟨s, Except.error RPErr.invalidState⟩
  else ⟨{ s with events := [], recording := true }, Except.ok ()⟩

/-- `play(repeat_count, interval)` up to spawning the thread: refuse
while recording, refuse on an empty log, return silently if already
playing, else clear the stop signal, set `playing` and spawn (the
returned flag says whether a playback task was spawned). -/
def RP.play (s : RP) (repeatCount : Int) (interval : ℚ) : ApiOut Bool :=
  if s.recording then ⟨s, Except.error RPErr.invalidState⟩
  else if s.events.isEmpty then ⟨s, Except.error RPErr.emptyLog⟩
  else if s.playing then ⟨s, Except.ok false⟩
  else ⟨{ s with stopEvent := false, playing := true }, Except.ok true⟩

/-- `stop_play()`: set the stop signal, join the playback thread
(bounded), force `playing = False`, then clear the signal.  The net
state transformation, in program order. -/
def RP.stopPlay (s : RP) : RP :=
  let s1 := { s with stopEvent := true }
  let s2 := { s1 with playing := false }
  { s2 with stopEvent := false }

/-- `save(filepath)`: dump the current log, no state check. -/
def RP.save (s : RP) : ApiOut (List Record) :=
  ⟨s, Except.ok s.events⟩

/-- `load(filepath)`: replace the log wholesale with the decoded file
content, no state check, no validation. -/
def RP.load (s : RP) (recs : List Record) : ApiOut Unit :=
  ⟨{ s with events := recs }, Except.ok ()⟩

/-- `is_suppressed()` on a counter value. -/
def isSuppressedCount (c : Int) : Bool := decide (0 < c)

/-- Well-bracketed use of the suppression gate: a leaf synthetic
emission, a raising body, sequencing, and the `_suppress_events()`
scope itself.  The context manager is the only way the source touches
the counter, so every use is of this shape. -/
inductive SProg where
  | emit
  | raise
  | seq (p q : SProg)
  | scope (p : SProg)

/-- Run a suppression program from a counter value: the counter values
observed at each emission point, the final counter, and whether the
program completed without raising.  `scope` increments before its body
and decrements in `finally`, so the decrement also runs on a raise. -/
def runS : SProg → Int → List Int × Int × Bool
  | SProg.emit, c => ([c], c, true)
  | SProg.raise, c => ([], c, false)
  | SProg.seq p q, c =>
      let r1 := runS p c
      if r1.2.2 then
        let r2 := runS q r1.2.1
        (r1.1 ++ r2.1, r2.2.1, r2.2.2)
      else r1
  | SProg.scope p, c =>
      let r := runS p (c + 1)
      (r.1, r.2.1 - 1, r.2.2)

/-- The cancellation signal as the playback task observes it: `none` if
`stop_play_event` is never set during the run, `some ct` if it becomes
set at instant `ct` (a `threading.Event` stays set once set). -/
def sigSet (c : Option ℚ) (t : ℚ) : Bool :=
  match c with
  | none => false
  | some ct => decide (ct ≤ t)

/-- Measure for the slice-wait recursions: slices remaining until the
wait target, for slice length `1 / sl`. -/
def sliceMeasure (sl rem : ℚ) : ℕ :=
  (⌈rem * sl⌉).toNat

theorem sliceMeasure_pos (sl rem : ℚ) (hsl : 0 < sl) (h : 0 < rem) :
    0 < sliceMeasure sl rem := by
  have h1 : (0 : ℚ) < rem * sl := mul_pos h hsl
  have h2 : (1 : ℤ) ≤ ⌈rem * sl⌉ := by
    exact_mod_cast Int.ceil_pos.mpr h1
  unfold sliceMeasure
  omega

theorem sliceMeasure_step (sl rem : ℚ) (hsl : 0 < sl) (h : 1 / sl ≤ rem) :
    sliceMeasure sl (rem - 1 / sl) < sliceMeasure sl rem := by
  have hne : sl ≠ 0 := ne_of_gt hsl
  have hmul : (rem - 1 / sl) * sl = rem * sl - 1 := by
    field_simp
  have hceil : ⌈(rem - 1 / sl) * sl⌉ = ⌈rem * sl⌉ - 1 := by
    rw [hmul]
    exact_mod_cast Int.ceil_sub_int (rem * sl) 1
  have hpos : (1 : ℤ) ≤ ⌈rem * sl⌉ := by
    have : (1 : ℚ) ≤ rem * sl := by
      have := (div_le_iff hsl).mp h
      linarith
    calc (1 : ℤ) = ⌈(1 : ℚ)⌉ := by norm_num
      _ ≤ ⌈rem * sl⌉ := Int.ceil_le_ceil this
  unfold sliceMeasure
  rw [hceil]
  omega

theorem sliceMeasure_zero_le (sl rem : ℚ) (hsl : 0 < sl)
    (h : sliceMeasure sl rem = 0) : rem ≤ 0 := by
  unfold sliceMeasure at h
  have hc : ⌈rem * sl⌉ ≤ 0 := Int.toNat_eq_zero.mp h
  have hle : rem * sl ≤ (⌈rem * sl⌉ : ℚ) := Int.le_ceil _
  have : rem * sl ≤ 0 := by
    calc rem * sl ≤ (⌈rem * sl⌉ : ℚ) := hle
      _ ≤ 0 := by exact_mod_cast hc
  nlinarith

theorem waitLoop_measure (target now : ℚ) (h : ¬ target - now ≤ 0) :
    sliceMeasure 100 (target - (now + min (1 / 100 : ℚ) (target - now))) <
      sliceMeasure 100 (target - now) := by
  rcases le_total (target - now) (1 / 100 : ℚ) with hle | hle
  · have hmin : min (1 / 100 : ℚ) (target - now) = target - now := min_eq_right hle
    rw [hmin]
    have heq : target - (now + (target - now)) = 0 := by ring
    rw [heq]
    have h0 : sliceMeasure 100 0 = 0 := by
      unfold sliceMeasure
      norm_num
    rw [h0]
    exact sliceMeasure_pos 100 (target - now) (by norm_num) (by linarith)
  · have hmin : min (1 / 100 : ℚ) (target - now) = (1 / 100 : ℚ) := min_eq_left hle
    rw [hmin]
    have heq : target - (now + 1 / 100) = (target - now) - 1 / 100 := by ring
    rw [heq]
    exact sliceMeasure_step 100 (target - now) (by norm_num)
      (by norm_num at hle ⊢; linarith)

theorem intervalWait_measure (endt now : ℚ) (h : now < endt) :
    sliceMeasure 20 (endt - (now + 1 / 20)) < sliceMeasure 20 (endt - now) := by
  have heq : endt - (now + 1 / 20) = (endt - now) - 1 / 20 := by ring
  rw [heq]
  rcases le_total (1 / 20 : ℚ) (endt - now) with hle | hle
  · exact sliceMeasure_step 20 (endt - now) (by norm_num)
      (by norm_num at hle ⊢; linarith)
  · have hz : sliceMeasure 20 (endt - now - 1 / 20) = 0 := by
      unfold sliceMeasure
      have hle2 : (endt - now - 1 / 20) * 20 ≤ 0 := by nlinarith
      have hc : ⌈(endt - now - 1 / 20) * 20⌉ ≤ 0 := by
        calc ⌈(endt - now - 1 / 20) * 20⌉ ≤ ⌈(0 : ℚ)⌉ := Int.ceil_le_ceil hle2
          _ = 0 := by norm_num
      omega
    rw [hz]
    exact sliceMeasure_pos 20 (endt - now) (by norm_num) (by linarith)

/-- The responsive wait before one event (lines 138–145): poll the stop
signal, break once `now ≥ target_time`, else sleep
`min(0.01, remaining)`.  Idealized clock: a sleep advances `now` by
exactly the slept amount, everything else is instantaneous.  Returns
the instant the loop breaks at, or `none` when the `return` on the stop
signal fires first. -/
def waitLoop (c : Option ℚ) (target : ℚ) (now : ℚ) : Option ℚ :=
  if sigSet c now then none
  else if target - now ≤ 0 then some now
  else waitLoop c target (now + min (1 / 100 : ℚ) (target - now))
termination_by sliceMeasure 100 (target - now)
decreasing_by
  rename_i hstop hrem
  exact waitLoop_measure target now hrem

/-- The inter-cycle wait (lines 155–159): while `now < endt`, poll the
stop signal and sleep `0.05`.  Same idealized clock. -/
def intervalWait (c : Option ℚ) (endt : ℚ) (now : ℚ) : Option ℚ :=
  if h : now < endt then
    if sigSet c now then none
    else intervalWait c endt (now + 1 / 20)
  else some now
termination_by sliceMeasure 20 (endt - now)
decreasing_by
  exact intervalWait_measure endt now h

/-- Lines 154–159 as a whole: the wait only happens when `interval > 0`. -/
def cycleGap (c : Option ℚ) (interval : ℚ) (now : ℚ) : Option ℚ :=
  if 0 < interval then intervalWait c (now + interval) now else some now

/-- Outcome of the per-cycle `for ev in self.events` loop: the `return`
on the stop signal, normal completion carrying the clock afterwards, or
an uncaught exception from the timing arithmetic.  Each outcome carries
the performed prefix as (record, instant performed) pairs. -/
inductive CyRes where
  | cancelled (trace : List (Record × ℚ))
  | done (now : ℚ) (trace : List (Record × ℚ))
  | crashed (trace : List (Record × ℚ))
deriving DecidableEq

/-- The performed prefix of a cycle outcome. -/
def CyRes.trace : CyRes → List (Record × ℚ)
  | CyRes.cancelled tr => tr
  | CyRes.done _ tr => tr
  | CyRes.crashed tr => tr

/-- Prepend a performed event to a cycle outcome's trace. -/
def CyRes.consEv (ev : Record) (t : ℚ) : CyRes → CyRes
  | CyRes.cancelled tr => CyRes.cancelled ((ev, t) :: tr)
  | CyRes.done n tr => CyRes.done n ((ev, t) :: tr)
  | CyRes.crashed tr => CyRes.crashed ((ev, t) :: tr)

theorem CyRes.consEv_trace (ev : Record) (t : ℚ) (r : CyRes) :
    (CyRes.consEv ev t r).trace = (ev, t) :: r.trace := by
  cases r <;> rfl

theorem CyRes.consEv_done (ev : Record) (t : ℚ) (r : CyRes) (e : ℚ)
    (tr : List (Record × ℚ)) (h : r = CyRes.done e tr) :
    CyRes.consEv ev t r = CyRes.done e ((ev, t) :: tr) := by
  rw [h]
  rfl

/-- The per-cycle loop (lines 130–151): per event, check the stop
signal, compute `base_time` lazily at the first event
(`time.time() - ev.get("time", 0)`), compute
`target_time = base_time + ev.get("time", 0)`, wait, perform.  The
per-event perform is wrapped in `try/except` and instantaneous, so it
only contributes its trace entry. -/
def runEvents (c : Option ℚ) (base? : Option ℚ) (evs : List Record) (now : ℚ) : CyRes :=
  match evs with
  | [] => CyRes.done now []
  | ev :: rest =>
      if sigSet c now then CyRes.cancelled []
      else
        match recTimeQ ev with
        | none => CyRes.crashed []
        | some tv =>
            let base := base?.getD (now - tv)
            match waitLoop c (base + tv) now with
            | none => CyRes.cancelled []
            | some t => CyRes.consEv ev t (runEvents c (some base) rest t)

/-- `infinite or cycles_done < repeat_count` (line 128). -/
def loopGuard (repeatCount : Int) (cyclesDone : ℕ) : Bool :=
  decide (repeatCount ≤ 0) || decide ((cyclesDone : Int) < repeatCount)

/-- Outcome of the whole `while` loop of the playback task, with the
per-cycle traces.  `fuelOut` is an artifact of the fuel bound: the loop
is still running. -/
inductive PlayRes where
  | finished (endTime : ℚ) (trace : List (List (Record × ℚ)))
  | cancelled (trace : List (List (Record × ℚ)))
  | crashed (trace : List (List (Record × ℚ)))
  | fuelOut (trace : List (List (Record × ℚ)))
deriving DecidableEq

/-- Prepend a completed cycle's trace to a repeat-loop outcome. -/
def PlayRes.consCy (tr : List (Record × ℚ)) : PlayRes → PlayRes
  | PlayRes.finished e trs => PlayRes.finished e (tr :: trs)
  | PlayRes.cancelled trs => PlayRes.cancelled (tr :: trs)
  | PlayRes.crashed trs => PlayRes.crashed (tr :: trs)
  | PlayRes.fuelOut trs => PlayRes.fuelOut (tr :: trs)

/-- The repeat loop of the playback task (lines 126–159): while the
guard holds, run one cycle with a fresh `base_time = None`, then the
inter-cycle wait.  `fuel` bounds how many cycles we unfold. -/
def runCycles (c : Option ℚ) (repeatCount : Int) (interval : ℚ) (evs : List Record)
    (fuel : ℕ) (cyclesDone : ℕ) (now : ℚ) : PlayRes :=
  if loopGuard repeatCount cyclesDone = false then PlayRes.finished now []
  else
    match fuel with
    | 0 => PlayRes.fuelOut []
    | Nat.succ f =>
        match runEvents c none evs now with
        | CyRes.cancelled tr => PlayRes.cancelled [tr]
        | CyRes.crashed tr => PlayRes.crashed [tr]
        | CyRes.done n1 tr =>
            match cycleGap c interval n1 with
            | none => PlayRes.cancelled [tr]
            | some n2 =>
                PlayRes.consCy tr (runCycles c repeatCount interval evs f (cyclesDone + 1) n2)

/-- Whether the playback task has left its `try` body (by completion,
by the cancellation `return`, or by an exception) — the cases in which
the `finally` has run. -/
def exited : PlayRes → Bool
  | PlayRes.fuelOut _ => false
  | _ => true

/-- The playback task `target()` including its `try/finally`: run the
loop; whenever the body is left — normally, by `return`, or by an
exception — the `finally` clears `playing`. -/
def targetRun (s : RP) (c : Option ℚ) (repeatCount : Int) (interval : ℚ)
    (fuel : ℕ) (t0 : ℚ) : RP × PlayRes :=
  let res := runCycles c repeatCount interval s.events fuel 0 t0
  if exited res then ({ s with playing := false }, res) else (s, res)

/-- `ev.get("time", 0)` as a number, defaulting ill-typed values (used
only to state schedules; `runEvents` itself crashes on those). -/
def tval (r : Record) : ℚ := (recTimeQ r).getD 0

/-- Every record's `time` field reads as a number (no `TypeError`). -/
def timesOk (evs : List Record) : Prop := ∀ r ∈ evs, (recTimeQ r).isSome

instance (evs : List Record) : Decidable (timesOk evs) := by
  unfold timesOk
  infer_instance

/-- The instants a cycle performs its events at, given the cycle base
and the clock at the loop head: each event fires at
`max now (base + tv)` — it waits until `base + tv` unless already
late. -/
def schedTimes (base : ℚ) : ℚ → List ℚ → List ℚ
  | _, [] => []
  | now, tv :: rest => max now (base + tv) :: schedTimes base (max now (base + tv)) rest

/-- Per-cycle schedule correctness for a run's list of cycle traces,
with `s` the clock at the head of the corresponding cycle: every cycle
replays the whole log, and its instants follow `schedTimes` with the
base `s - tv₀` recomputed from that cycle's own start. -/
def cyclesOk (evs : List Record) (tv0 : ℚ) (tvs : List ℚ) :
    List (List (Record × ℚ)) → ℚ → Prop
  | [], _ => True
  | tr :: rest, s =>
      tr = evs.zip (schedTimes (s - tv0) s tvs) ∧ ∃ s2, cyclesOk evs tv0 tvs rest s2

theorem waitLoop_none_aux (target : ℚ) :
    ∀ (k : ℕ) (now : ℚ), sliceMeasure 100 (target - now) ≤ k →
      waitLoop none target now = some (max now target) := by
  intro k
  induction k with
  | zero =>
    intro now h
    have hrem : target - now ≤ 0 :=
      sliceMeasure_zero_le 100 (target - now) (by norm_num) (Nat.le_zero.mp h)
    rw [waitLoop]
    simp only [sigSet, Bool.false_eq_true, if_false, if_pos hrem]
    rw [max_eq_left (by linarith)]
  | succ k ih =>
    intro now h
    rw [waitLoop]
    simp only [sigSet, Bool.false_eq_true, if_false]
    by_cases hrem : target - now ≤ 0
    · rw [if_pos hrem, max_eq_left (by linarith)]
    · rw [if_neg hrem]
      have hm := waitLoop_measure target now hrem
      have hk : sliceMeasure 100 (target - (now + min (1 / 100 : ℚ) (target - now))) ≤ k := by
        omega
      rw [ih _ hk]
      have hlt : now < target := by linarith
      have hmin : 0 < min (1 / 100 : ℚ) (target - now) := by
        apply lt_min (by norm_num) (by linarith)
      have hle2 : now + min (1 / 100 : ℚ) (target - now) ≤ target := by
        have := min_le_right (1 / 100 : ℚ) (target - now)
        linarith
      rw [max_eq_right hle2, max_eq_right (le_of_lt hlt)]

/-- With no cancellation the wait loop exits exactly when the clock
reaches the target (immediately when already past it). -/
theorem waitLoop_none (target now : ℚ) :
    waitLoop none target now = some (max now target) :=
  waitLoop_none_aux target (sliceMeasure 100 (target - now)) now le_rfl

/-- A signal already set cancels the wait at its first poll. -/
theorem waitLoop_cancelled (c : Option ℚ) (target now : ℚ)
    (h : sigSet c now = true) : waitLoop c target now = none := by
  rw [waitLoop, if_pos h]

theorem waitLoop_some_not_set_aux (c : Option ℚ) (target : ℚ) :
    ∀ (k : ℕ) (now t : ℚ), sliceMeasure 100 (target - now) ≤ k →
      waitLoop c target now = some t → sigSet c t = false := by
  intro k
  induction k with
  | zero =>
    intro now t h hw
    have hrem : target - now ≤ 0 :=
      sliceMeasure_zero_le 100 (target - now) (by norm_num) (Nat.le_zero.mp h)
    rw [waitLoop] at hw
    by_cases hs : sigSet c now
    · rw [if_pos hs] at hw
      exact absurd hw (by simp)
    · rw [if_neg hs, if_pos hrem] at hw
      obtain rfl : now = t := Option.some.inj hw
      simpa using hs
  | succ k ih =>
    intro now t h hw
    rw [waitLoop] at hw
    by_cases hs : sigSet c now
    · rw [if_pos hs] at hw
      exact absurd hw (by simp)
    · rw [if_neg hs] at hw
      by_cases hrem : target - now ≤ 0
      · rw [if_pos hrem] at hw
        obtain rfl : now = t := Option.some.inj hw
        simpa using hs
      · rw [if_neg hrem] at hw
        have hm := waitLoop_measure target now hrem
        exact ih _ t (by omega) hw

/-- The stop signal is checked right before the wait loop breaks: any
instant the loop hands back for performing an event has the signal
still unset. -/
theorem waitLoop_some_not_set (c : Option ℚ) (target now t : ℚ)
    (hw : waitLoop c target now = some t) : sigSet c t = false :=
  waitLoop_some_not_set_aux c target (sliceMeasure 100 (target - now)) now t le_rfl hw

theorem intervalWait_none_aux (endt : ℚ) :
    ∀ (k : ℕ) (now : ℚ), sliceMeasure 20 (endt - now) ≤ k →
      ∃ t2, intervalWait none endt now = some t2 := by
  intro k
  induction k with
  | zero =>
    intro now h
    have hrem : endt - now ≤ 0 :=
      sliceMeasure_zero_le 20 (endt - now) (by norm_num) (Nat.le_zero.mp h)
    rw [intervalWait]
    rw [dif_neg (by linarith : ¬ now < endt)]
    exact ⟨now, rfl⟩
  | succ k ih =>
    intro now h
    rw [intervalWait]
    by_cases hlt : now < endt
    · rw [dif_pos hlt]
      simp only [sigSet, Bool.false_eq_true, if_false]
      have hm := intervalWait_measure endt now hlt
      exact ih _ (by omega)
    · rw [dif_neg hlt]
      exact ⟨now, rfl⟩

/-- With no cancellation the inter-cycle wait completes. -/
theorem intervalWait_none (endt now : ℚ) :
    ∃ t2, intervalWait none endt now = some t2 :=
  intervalWait_none_aux endt (sliceMeasure 20 (endt - now)) now le_rfl

/-- With no cancellation the whole inter-cycle pause completes. -/
theorem cycleGap_none (interval now : ℚ) :
    ∃ t2, cycleGap none interval now = some t2 := by
  unfold cycleGap
  by_cases h : 0 < interval
  · rw [if_pos h]
    exact intervalWait_none (now + interval) now
  · rw [if_neg h]
    exact ⟨now, rfl⟩

/-- With no cancellation and well-typed times, a cycle started with
base already fixed performs every remaining event, in order, at the
`schedTimes` instants. -/
theorem runEvents_some_base (evs : List Record) (h : timesOk evs) :
    ∀ (base now : ℚ), ∃ e,
      runEvents none (some base) evs now =
        CyRes.done e (evs.zip (schedTimes base now (evs.map tval))) := by
  induction evs with
  | nil =>
    intro base now
    exact ⟨now, rfl⟩
  | cons ev rest ih =>
    intro base now
    have hev : (recTimeQ ev).isSome := h ev (by simp)
    obtain ⟨tv, htv⟩ := Option.isSome_iff_exists.mp hev
    have hrest : timesOk rest := fun r hr => h r (by simp [hr])
    obtain ⟨e, he⟩ := ih hrest base (max now (base + tv))
    refine ⟨e, ?_⟩
    rw [runEvents]
    simp only [sigSet, Bool.false_eq_true, if_false, htv, Option.getD_some]
    rw [waitLoop_none (base + tv) now]
    dsimp only
    rw [CyRes.consEv_done ev (max now (base + tv)) _ e _ he]
    have htval : tval ev = tv := by simp [tval, htv]
    simp [schedTimes, htval]

/-- With no cancellation and well-typed times, a cycle starting with
`base_time = None` computes the base from its own first event —
`base = now - tv₀`, so the first event's target is `now` and it fires
immediately — and then performs the whole log at the `schedTimes`
instants. -/
theorem runEvents_fresh (ev0 : Record) (rest : List Record)
    (h : timesOk (ev0 :: rest)) (now : ℚ) : ∃ e,
      runEvents none none (ev0 :: rest) now =
        CyRes.done e ((ev0 :: rest).zip
          (schedTimes (now - tval ev0) now ((ev0 :: rest).map tval))) := by
  have hev : (recTimeQ ev0).isSome := h ev0 (by simp)
  obtain ⟨tv, htv⟩ := Option.isSome_iff_exists.mp hev
  have htval : tval ev0 = tv := by simp [tval, htv]
  have hrest : timesOk rest := fun r hr => h r (by simp [hr])
  obtain ⟨e, he⟩ := runEvents_some_base rest hrest (now - tv) (max now ((now - tv) + tv))
  refine ⟨e, ?_⟩
  rw [runEvents]
  simp only [sigSet, Bool.false_eq_true, if_false, htv, Option.getD_none]
  rw [waitLoop_none ((now - tv) + tv) now]
  dsimp only
  rw [CyRes.consEv_done ev0 (max now ((now - tv) + tv)) _ e _ he]
  have hcancel : now - tv + tv = now := by ring
  simp [schedTimes, htval, hcancel]

/-- Every event a cycle actually performs is performed at an instant at
which the stop signal is still unset: cancellation always wins the race
against the next event. -/
theorem runEvents_trace_not_set (c : Option ℚ) :
    ∀ (evs : List Record) (base? : Option ℚ) (now : ℚ),
      ∀ p ∈ (runEvents c base? evs now).trace, sigSet c p.2 = false := by
  intro evs
  induction evs with
  | nil =>
    intro base? now p hp
    simp [runEvents, CyRes.trace] at hp
  | cons ev rest ih =>
    intro base? now p hp
    rw [runEvents] at hp
    by_cases hs : sigSet c now
    · rw [if_pos hs] at hp
      simp [CyRes.trace] at hp
    · rw [if_neg hs] at hp
      rcases htv : recTimeQ ev with _ | tv
      · rw [htv] at hp
        simp [CyRes.trace] at hp
      · rw [htv] at hp
        dsimp only at hp
        rcases hw : waitLoop c (base?.getD (now - tv) + tv) now with _ | t
        · rw [hw] at hp
          simp [CyRes.trace] at hp
        · rw [hw] at hp
          dsimp only at hp
          rw [CyRes.consEv_trace] at hp
          have hts := waitLoop_some_not_set c _ now t hw
          rcases List.mem_cons.mp hp with hp1 | hp2
          · rw [hp1]
            exact hts
          · exact ih (some (base?.getD (now - tv))) t p hp2

theorem PlayRes.consCy_finished (tr : List (Record × ℚ)) (r : PlayRes) (e : ℚ)
    (trs : List (List (Record × ℚ))) (h : r = PlayRes.finished e trs) :
    PlayRes.consCy tr r = PlayRes.finished e (tr :: trs) := by
  rw [h]
  rfl

theorem PlayRes.consCy_fuelOut (tr : List (Record × ℚ)) (r : PlayRes)
    (trs : List (List (Record × ℚ))) (h : r = PlayRes.fuelOut trs) :
    PlayRes.consCy tr r = PlayRes.fuelOut (tr :: trs) := by
  rw [h]
  rfl

/-- With no cancellation and well-typed times, a finite positive repeat
count `N` yields a `finished` run of exactly `N` cycles, each cycle
re-based from its own start instant. -/
theorem runCycles_none_char (ev0 : Record) (rest : List Record)
    (h : timesOk (ev0 :: rest)) (N : ℕ) (hN : 0 < N) (interval : ℚ) :
    ∀ (k fuel cyclesDone : ℕ) (now : ℚ), cyclesDone + k = N → k ≤ fuel →
      ∃ endT trace,
        runCycles none (N : Int) interval (ev0 :: rest) fuel cyclesDone now =
          PlayRes.finished endT trace ∧
        trace.length = k ∧
        cyclesOk (ev0 :: rest) (tval ev0) ((ev0 :: rest).map tval) trace now := by
  intro k
  induction k with
  | zero =>
    intro fuel cyclesDone now hdone hfuel
    have hguard : loopGuard (N : Int) cyclesDone = false := by
      unfold loopGuard
      have h1 : ¬ ((N : Int) ≤ 0) := by exact_mod_cast Nat.not_le.mpr hN
      have h2 : ¬ ((cyclesDone : Int) < (N : Int)) := by
        have : cyclesDone = N := by omega
        omega
      simp [h1, h2]
    rcases fuel with _ | f <;> rw [runCycles, if_pos hguard] <;>
      exact ⟨now, [], rfl, rfl, trivial⟩
  | succ k ih =>
    intro fuel cyclesDone now hdone hfuel
    have hguard : ¬ (loopGuard (N : Int) cyclesDone = false) := by
      unfold loopGuard
      have h2 : (cyclesDone : Int) < (N : Int) := by
        have : cyclesDone < N := by omega
        exact_mod_cast this
      simp [h2]
    obtain ⟨f, rfl⟩ : ∃ f, fuel = f + 1 := by
      rcases fuel with _ | f
      · omega
      · exact ⟨f, rfl⟩
    rw [runCycles, if_neg hguard]
    obtain ⟨e1, he1⟩ := runEvents_fresh ev0 rest h now
    rw [he1]
    dsimp only
    obtain ⟨n2, hn2⟩ := cycleGap_none interval e1
    rw [hn2]
    dsimp only
    obtain ⟨endT, trs, hrun, hlen, hok⟩ := ih f (cyclesDone + 1) n2 (by omega) (by omega)
    rw [PlayRes.consCy_finished _ _ endT trs hrun]
    refine ⟨endT, _ :: trs, rfl, by simp [hlen], ?_, n2, hok⟩
    rfl

/-- With no cancellation, well-typed times and a non-empty log, a
non-positive repeat count never leaves the loop: every fuel bound runs
out with the loop still going. -/
theorem runCycles_infinite (ev0 : Record) (rest : List Record)
    (h : timesOk (ev0 :: rest)) (repeatCount : Int) (hrep : repeatCount ≤ 0)
    (interval : ℚ) :
    ∀ (fuel cyclesDone : ℕ) (now : ℚ), ∃ trs,
      runCycles none repeatCount interval (ev0 :: rest) fuel cyclesDone now =
        PlayRes.fuelOut trs := by
  intro fuel
  induction fuel with
  | zero =>
    intro cyclesDone now
    have hguard : ¬ (loopGuard repeatCount cyclesDone = false) := by
      unfold loopGuard
      simp [hrep]
    rw [runCycles, if_neg hguard]
    exact ⟨[], rfl⟩
  | succ f ih =>
    intro cyclesDone now
    have hguard : ¬ (loopGuard repeatCount cyclesDone = false) := by
      unfold loopGuard
      simp [hrep]
    rw [runCycles, if_neg hguard]
    obtain ⟨e1, he1⟩ := runEvents_fresh ev0 rest h now
    rw [he1]
    dsimp only
    obtain ⟨n2, hn2⟩ := cycleGap_none interval e1
    rw [hn2]
    dsimp only
    obtain ⟨trs, htrs⟩ := ih (cyclesDone + 1) n2
    rw [PlayRes.consCy_fuelOut _ _ trs htrs]
    exact ⟨_ :: trs, rfl⟩

/-- A stop signal that is already set when a cycle begins cancels the
playback task before it performs anything. -/
theorem runCycles_cancel_immediate (evs : List Record) (hne : evs ≠ [])
    (repeatCount : Int) (interval : ℚ) (fuel cyclesDone : ℕ) (hf : 0 < fuel)
    (hguard : loopGuard repeatCount cyclesDone = true) (now ct : ℚ) (hct : ct ≤ now) :
    runCycles (some ct) repeatCount interval evs fuel cyclesDone now =
      PlayRes.cancelled [[]] := by
  obtain ⟨f, rfl⟩ : ∃ f, fuel = f + 1 := by
    rcases fuel with _ | f
    · omega
    · exact ⟨f, rfl⟩
  rw [runCycles, if_neg (by simp [hguard])]
  obtain ⟨ev0, rest, rfl⟩ : ∃ ev0 rest, evs = ev0 :: rest := by
    rcases evs with _ | ⟨ev0, rest⟩
    · exact absurd rfl hne
    · exact ⟨ev0, rest, rfl⟩
  rw [runEvents]
  have hsig : sigSet (some ct) now = true := by
    simp [sigSet, hct]
  rw [if_pos hsig]

/-- The suppression counter is restored to its entry value by every
well-bracketed program, raise or no raise: the `finally` decrement
undoes each increment. -/
theorem runS_final (p : SProg) : ∀ c : Int, (runS p c).2.1 = c := by
  induction p with
  | emit => intro c; rfl
  | raise => intro c; rfl
  | seq p q ihp ihq =>
    intro c
    rw [runS]
    by_cases hok : (runS p c).2.2
    · rw [if_pos hok]
      simp only
      rw [ihq, ihp]
    · rw [if_neg hok]
      exact ihp c
  | scope p ihp =>
    intro c
    rw [runS]
    simp only
    rw [ihp]
    ring

/-- Every counter value observed at an emission point is at least the
entry value: the counter never drops below where it started. -/
theorem runS_obs_ge (p : SProg) : ∀ c, ∀ x ∈ (runS p c).1, c ≤ x := by
  induction p with
  | emit =>
    intro c x hx
    simp [runS] at hx
    omega
  | raise =>
    intro c x hx
    simp [runS] at hx
  | seq p q ihp ihq =>
    intro c x hx
    rw [runS] at hx
    by_cases hok : (runS p c).2.2
    · rw [if_pos hok] at hx
      simp only [List.mem_append] at hx
      rcases hx with hx | hx
      · exact ihp c x hx
      · have := ihq (runS p c).2.1 x hx
        rw [runS_final p c] at this
        exact this
    · rw [if_neg hok] at hx
      exact ihp c x hx
  | scope p ihp =>
    intro c x hx
    rw [runS] at hx
    simp only at hx
    have := ihp (c + 1) x hx
    omega

/-- A key token the capture boundary can produce: any character, or a
named key whose name is an actual `Key` member (the capture encoding
`str(key)` only ever writes names of real members). -/
def validKey : KeyToken → Prop
  | KeyToken.char _ => True
  | KeyToken.named n => n ∈ keyNames

instance (k : KeyToken) : Decidable (validKey k) := by
  cases k <;> unfold validKey <;> infer_instance

/-- An event whose key tokens, if any, are capturable. -/
def validEvent : Event → Prop
  | Event.keyPress _ k => validKey k
  | Event.keyRelease _ k => validKey k
  | _ => True

instance (e : Event) : Decidable (validEvent e) := by
  cases e <;> unfold validEvent <;> infer_instance

/-- Decoding a bare single character yields that character key. -/
theorem decodeKeyStr_char (c : Char) :
    decodeKeyStr (some (JVal.str (String.singleton c))) = some (KeyToken.char c) := rfl

/-- Decoding a `Key.`-string with a resolvable member name yields the
named key. -/
theorem decodeKeyStr_named_mem (n : String) (hn : n ∈ keyNames) :
    decodeKeyStr (some (JVal.str ("Key." ++ n))) = some (KeyToken.named n) := by
  show (if n ∈ keyNames then some (KeyToken.named n)
        else decodeKeyPlain ('K' :: 'e' :: 'y' :: '.' :: n.data)) =
    some (KeyToken.named n)
  rw [if_pos hn]

/-- Decoding a `Key.`-string with an unresolvable member name fails
(the fallback press attempts all raise and are swallowed). -/
theorem decodeKeyStr_named_not_mem (n : String) (hn : n ∉ keyNames) :
    decodeKeyStr (some (JVal.str ("Key." ++ n))) = none := by
  show (if n ∈ keyNames then some (KeyToken.named n)
        else decodeKeyPlain ('K' :: 'e' :: 'y' :: '.' :: n.data)) = none
  rw [if_neg hn]
  unfold decodeKeyPlain
  rw [if_neg (fun hcond => absurd (Option.some.inj hcond.2.1) (by decide))]

/-- Decoding inverts the capture encoding on every valid key token. -/
theorem decodeKeyStr_encodeKey (k : KeyToken) (hk : validKey k) :
    decodeKeyStr (some (JVal.str (encodeKey k))) = some k := by
  cases k with
  | char c => exact decodeKeyStr_char c
  | named n => exact decodeKeyStr_named_mem n hk

/-- An unresolvable button member name resolves to the `Button.left`
default of `getattr`. -/
theorem buttonFromName_not_mem (m : String)
    (hm : m ∉ ["left", "right", "middle"]) : buttonFromName m = MButton.left := by
  unfold buttonFromName
  have h1 : ¬ (m = "left") := by intro h; exact hm (by simp [h])
  have h2 : ¬ (m = "right") := by intro h; exact hm (by simp [h])
  have h3 : ¬ (m = "middle") := by intro h; exact hm (by simp [h])
  rw [if_neg h1, if_neg h2, if_neg h3]

theorem schedTimes_length (base : ℚ) :
    ∀ (now : ℚ) (tvs : List ℚ), (schedTimes base now tvs).length = tvs.length := by
  intro now tvs
  induction tvs generalizing now with
  | nil => rfl
  | cons tv rest ih => simp [schedTimes, ih]

/-- Every cycle trace satisfying `cyclesOk` replays the full log. -/
theorem cyclesOk_lengths (evs : List Record) (tv0 : ℚ) :
    ∀ (trace : List (List (Record × ℚ))) (s : ℚ),
      cyclesOk evs tv0 (evs.map tval) trace s →
        ∀ tr ∈ trace, tr.length = evs.length := by
  intro trace
  induction trace with
  | nil =>
    intro s _ tr htr
    simp at htr
  | cons tr0 rest ih =>
    intro s hok tr htr
    obtain ⟨heq, s2, hrest⟩ := hok
    rcases List.mem_cons.mp htr with h1 | h2
    · rw [h1, heq]
      rw [List.length_zip, schedTimes_length]
      simp
    · exact ih s2 hrest tr h2

section Claims

/-- C2: Codec round-trip.  Decoding the record the capture callbacks
write for an event yields that event back, for all five variants —
including both key-token forms, which also encode distinctly (the
encoding is injective on valid tokens), and preserving mouse-button
identity. -/
theorem c2_codec_roundtrip (e : Event) (hv : validEvent e) :
    decodeEvent (encodeEvent e) = some e ∧
    (∀ k1 k2 : KeyToken, validKey k1 → validKey k2 →
      encodeKey k1 = encodeKey k2 → k1 = k2) := by
  constructor
  · cases e with
    | mouseMove t x y => rfl
    | mouseScroll t x y dx dy => rfl
    | mouseClick t x y b p => cases b <;> cases p <;> rfl
    | keyPress t k =>
        show ((some t : Option ℚ).bind (fun tm =>
          (decodeKeyStr (some (JVal.str (encodeKey k)))).map
            (fun kk => Event.keyPress tm kk))) = some (Event.keyPress t k)
        rw [decodeKeyStr_encodeKey k hv]
        rfl
    | keyRelease t k =>
        show ((some t : Option ℚ).bind (fun tm =>
          (decodeKeyStr (some (JVal.str (encodeKey k)))).map
            (fun kk => Event.keyRelease tm kk))) = some (Event.keyRelease t k)
        rw [decodeKeyStr_encodeKey k hv]
        rfl
  · intro k1 k2 h1 h2 henc
    have d1 := decodeKeyStr_encodeKey k1 h1
    have d2 := decodeKeyStr_encodeKey k2 h2
    rw [henc, d2] at d1
    exact (Option.some.inj d1).symm

/-- Witness for C2: round trips of a named key, a character key, and a
right-button click. -/
theorem c2_codec_roundtrip_witness :
    decodeEvent (encodeEvent (Event.keyPress (1 / 2) (KeyToken.named "space"))) =
      some (Event.keyPress (1 / 2) (KeyToken.named "space")) ∧
    decodeEvent (encodeEvent (Event.keyRelease 1 (KeyToken.char 'a'))) =
      some (Event.keyRelease 1 (KeyToken.char 'a')) ∧
    decodeEvent (encodeEvent (Event.mouseClick 0 3 4 MButton.right false)) =
      some (Event.mouseClick 0 3 4 MButton.right false) :=
  ⟨(c2_codec_roundtrip (Event.keyPress (1 / 2) (KeyToken.named "space")) (by decide)).1,
   (c2_codec_roundtrip (Event.keyRelease 1 (KeyToken.char 'a')) (by decide)).1,
   (c2_codec_roundtrip (Event.mouseClick 0 3 4 MButton.right false) (by decide)).1⟩

/-- C8 counterexample: a `mouse_click` record whose button name
`Button.forward` resolves to no `Button` member is not skipped — the
cursor is repositioned and the left button, the `getattr` default, is
pressed. -/
theorem c8_counterexample :
    performEvent [("type", JVal.str "mouse_click"), ("time", JVal.num 0),
      ("x", JVal.num 5), ("y", JVal.num 6),
      ("button", JVal.str "Button.forward"), ("pressed", JVal.bool true)] =
      Except.ok [Prim.setPos 5 6, Prim.btnPress MButton.left] ∧
    performEvent [("type", JVal.str "mouse_click"), ("time", JVal.num 0),
      ("x", JVal.num 5), ("y", JVal.num 6),
      ("button", JVal.str "Button.forward"), ("pressed", JVal.bool true)] ≠
      Except.ok [] :=
  ⟨rfl, fun h => List.noConfusion (Except.ok.inj h)⟩

/-- C8 (amended): Named-token decoding.  For keys the claim holds: a
resolvable `Key.`-name maps to that named key and an unresolvable one
injects nothing (the event is skipped, playback continues, no error).
For mouse buttons a resolvable member name maps to that button, but an
unresolvable button name falls back to the `Button.left` default of
`getattr` and the click is still injected, rather than the event being
skipped. -/
theorem c8_amended_named_token_decoding :
    (∀ n : String, n ∈ keyNames → ∀ t : ℚ,
      performEvent [("type", JVal.str "key_press"), ("time", JVal.num t),
        ("key", JVal.str ("Key." ++ n))] =
        Except.ok [Prim.keyDown (KeyToken.named n)]) ∧
    (∀ n : String, n ∉ keyNames → ∀ t : ℚ,
      performEvent [("type", JVal.str "key_press"), ("time", JVal.num t),
        ("key", JVal.str ("Key." ++ n))] = Except.ok []) ∧
    (performEvent [("type", JVal.str "mouse_click"), ("time", JVal.num 0),
      ("x", JVal.num 5), ("y", JVal.num 6),
      ("button", JVal.str "Button.right"), ("pressed", JVal.bool true)] =
      Except.ok [Prim.setPos 5 6, Prim.btnPress MButton.right]) ∧
    (∀ bs : String, bs ≠ "" → lastDotComponent bs ∉ ["left", "right", "middle"] →
      ∀ x y : ℚ,
        performEvent [("type", JVal.str "mouse_click"), ("time", JVal.num 0),
          ("x", JVal.num x), ("y", JVal.num y),
          ("button", JVal.str bs), ("pressed", JVal.bool true)] =
          Except.ok [Prim.setPos x y, Prim.btnPress MButton.left]) := by
  refine ⟨?_, ?_, rfl, ?_⟩
  · intro n hn t
    show (Except.ok ((decodeKeyStr (some (JVal.str ("Key." ++ n)))).elim []
      (fun k => [Prim.keyDown k])) : Except PyErr (List Prim)) = _
    rw [decodeKeyStr_named_mem n hn]
    rfl
  · intro n hn t
    show (Except.ok ((decodeKeyStr (some (JVal.str ("Key." ++ n)))).elim []
      (fun k => [Prim.keyDown k])) : Except PyErr (List Prim)) = _
    rw [decodeKeyStr_named_not_mem n hn]
    rfl
  · intro bs hbs hm x y
    have hb : truthy (JVal.str bs) = true := by simp [truthy, hbs]
    show ((if truthy (JVal.str bs) then
            Except.ok (buttonFromName (lastDotComponent bs))
          else Except.ok MButton.left).bind (fun btn =>
            (Except.ok [Prim.setPos x y] : Except PyErr (List Prim)).map (fun ps =>
              ps ++ [if truthy (JVal.bool true) then Prim.btnPress btn
                     else Prim.btnRelease btn]))) = _
    rw [if_pos hb, buttonFromName_not_mem (lastDotComponent bs) hm]
    rfl

/-- Witness for C8 (amended) at concrete names: `space` resolves,
`bogus` is skipped, `Button.forward` defaults to the left button. -/
theorem c8_amended_named_token_decoding_witness :
    performEvent [("type", JVal.str "key_press"), ("time", JVal.num 0),
      ("key", JVal.str ("Key." ++ "space"))] =
      Except.ok [Prim.keyDown (KeyToken.named "space")] ∧
    performEvent [("type", JVal.str "key_press"), ("time", JVal.num 0),
      ("key", JVal.str ("Key." ++ "bogus"))] = Except.ok [] ∧
    performEvent [("type", JVal.str "mouse_click"), ("time", JVal.num 0),
      ("x", JVal.num 1), ("y", JVal.num 2),
      ("button", JVal.str "Button.forward"), ("pressed", JVal.bool true)] =
      Except.ok [Prim.setPos 1 2, Prim.btnPress MButton.left] :=
  ⟨c8_amended_named_token_decoding.1 "space" (by decide) 0,
   c8_amended_named_token_decoding.2.1 "bogus" (by decide) 0,
   c8_amended_named_token_decoding.2.2.2 "Button.forward" (by decide) (by decide) 1 2⟩

/-- C9 counterexample: a record with the unknown type tag
`unknown_event` decodes and performs without any error — it is silently
skipped, and `load` accepts it into the log without validation; no
`CodecError` is ever raised. -/
theorem c9_counterexample :
    performEvent [("type", JVal.str "unknown_event")] = Except.ok [] ∧
    (∀ e : PyErr, performEvent [("type", JVal.str "unknown_event")] ≠ Except.error e) ∧
    RP.load ⟨false, false, [], false⟩ [[("type", JVal.str "unknown_event")]] =
      ⟨⟨false, false, [[("type", JVal.str "unknown_event")]], false⟩, Except.ok ()⟩ :=
  ⟨rfl, fun e h => Except.noConfusion h, rfl⟩

/-- C9 (amended): No decode validation.  A record whose type tag is
unknown (or missing) is silently skipped at perform time with no error;
`load` replaces the log with arbitrary records, always succeeding; and
missing required fields are defaulted, not rejected — a bare
`key_press` does nothing, a bare `mouse_click` presses the left button
at the current position.  There is no `CodecError` anywhere. -/
theorem c9_amended_silent_decode :
    (∀ (r : Record) (t : String), rget r "type" = some (JVal.str t) →
      t ∉ ["mouse_move", "mouse_click", "mouse_scroll", "key_press", "key_release"] →
      performEvent r = Except.ok []) ∧
    (∀ r : Record, rget r "type" = none → performEvent r = Except.ok []) ∧
    (∀ (s : RP) (recs : List Record),
      (RP.load s recs).result = Except.ok () ∧ (RP.load s recs).state.events = recs) ∧
    performEvent [("type", JVal.str "key_press")] = Except.ok [] ∧
    performEvent [("type", JVal.str "mouse_click")] =
      Except.ok [Prim.btnPress MButton.left] := by
  refine ⟨?_, ?_, fun s recs => ⟨rfl, rfl⟩, rfl, rfl⟩
  · intro r t ht hm
    have h1 : ¬ (t = "mouse_move") := by intro h; exact hm (by simp [h])
    have h2 : ¬ (t = "mouse_click") := by intro h; exact hm (by simp [h])
    have h3 : ¬ (t = "mouse_scroll") := by intro h; exact hm (by simp [h])
    have h4 : ¬ (t = "key_press") := by intro h; exact hm (by simp [h])
    have h5 : ¬ (t = "key_release") := by intro h; exact hm (by simp [h])
    unfold performEvent
    rw [ht]
    dsimp only
    rw [if_neg h1, if_neg h2, if_neg h3, if_neg h4, if_neg h5]
  · intro r ht
    unfold performEvent
    rw [ht]

/-- Witness for C9 (amended) at a concrete unknown tag. -/
theorem c9_amended_silent_decode_witness :
    performEvent [("type", JVal.str "bogus"), ("time", JVal.num 3)] = Except.ok [] :=
  c9_amended_silent_decode.1 [("type", JVal.str "bogus"), ("time", JVal.num 3)]
    "bogus" rfl (by decide)

/-- C3: Mutual exclusion of the two engines.  `start_recording()` while
the session is Playing raises `InvalidState` and changes nothing, and
`play(...)` while the session is Recording raises `InvalidState` and
changes nothing. -/
theorem c3_mutual_exclusion (s : RP) (repeatCount : Int) (interval : ℚ) :
    (s.playing = true →
      RP.startRecording s = ⟨s, Except.error RPErr.invalidState⟩) ∧
    (s.recording = true →
      RP.play s repeatCount interval = ⟨s, Except.error RPErr.invalidState⟩) := by
  constructor
  · intro hp
    unfold RP.startRecording
    rw [if_pos hp]
  · intro hr
    unfold RP.play
    rw [if_pos hr]

/-- Witness for C3 at concrete states: a Playing session refuses
`start_recording()`, a Recording session refuses `play()`. -/
theorem c3_mutual_exclusion_witness :
    RP.startRecording ⟨false, true, [], false⟩ =
      ⟨⟨false, true, [], false⟩, Except.error RPErr.invalidState⟩ ∧
    RP.play ⟨true, false, [], false⟩ 1 0 =
      ⟨⟨true, false, [], false⟩, Except.error RPErr.invalidState⟩ :=
  ⟨(c3_mutual_exclusion ⟨false, true, [], false⟩ 1 0).1 rfl,
   (c3_mutual_exclusion ⟨true, false, [], false⟩ 1 0).2 rfl⟩

/-- C4: Empty-log guard with atomicity.  On a session with an empty log
that is not Recording, `play()` raises `EmptyLog` and the session state
is returned exactly as it was: the playing flag, the cancellation
signal and the log are untouched and no playback task is spawned. -/
theorem c4_empty_log_guard (s : RP) (repeatCount : Int) (interval : ℚ)
    (hempty : s.events = []) (hrec : s.recording = false) :
    RP.play s repeatCount interval = ⟨s, Except.error RPErr.emptyLog⟩ ∧
    (RP.play s repeatCount interval).state = s ∧
    (RP.play s repeatCount interval).state.playing = s.playing ∧
    (RP.play s repeatCount interval).state.stopEvent = s.stopEvent ∧
    (RP.play s repeatCount interval).state.events = s.events ∧
    (∀ b, (RP.play s repeatCount interval).result ≠ Except.ok b) := by
  have hmain : RP.play s repeatCount interval = ⟨s, Except.error RPErr.emptyLog⟩ := by
    unfold RP.play
    rw [hrec]
    simp [hempty]
  refine ⟨hmain, ?_, ?_, ?_, ?_, ?_⟩ <;> rw [hmain] <;> simp

/-- Witness for C4 at the freshly constructed session. -/
theorem c4_empty_log_guard_witness :
    RP.play RP.init 1 0 = ⟨RP.init, Except.error RPErr.emptyLog⟩ :=
  (c4_empty_log_guard RP.init 1 0 rfl rfl).1

/-- C6: The session is never left stuck in Playing.  Every exit of the
playback task body — natural completion, the cancellation `return`, or
an internal exception — is an exit (`exited`), and on every exit the
`finally` leaves `playing = false`.  `stop_play()` always returns with
`playing = false` and the cancellation signal cleared, touching nothing
else, and is an identity no-op on a session that is already not
Playing with the signal clear. -/
theorem c6_never_stuck_playing :
    (∀ (e : ℚ) (tr : List (List (Record × ℚ))), exited (PlayRes.finished e tr) = true) ∧
    (∀ tr, exited (PlayRes.cancelled tr) = true) ∧
    (∀ tr, exited (PlayRes.crashed tr) = true) ∧
    (∀ (s : RP) (c : Option ℚ) (repeatCount : Int) (interval : ℚ) (fuel : ℕ) (t0 : ℚ),
      exited (runCycles c repeatCount interval s.events fuel 0 t0) = true →
        ((targetRun s c repeatCount interval fuel t0).1).playing = false) ∧
    (∀ s : RP, (RP.stopPlay s).playing = false ∧ (RP.stopPlay s).stopEvent = false ∧
      (RP.stopPlay s).recording = s.recording ∧ (RP.stopPlay s).events = s.events) ∧
    (∀ s : RP, s.playing = false → s.stopEvent = false → RP.stopPlay s = s) := by
  refine ⟨fun e tr => rfl, fun tr => rfl, fun tr => rfl, ?_, ?_, ?_⟩
  · intro s c repeatCount interval fuel t0 hex
    unfold targetRun
    rw [if_pos hex]
  · intro s
    exact ⟨rfl, rfl, rfl, rfl⟩
  · intro s hp hse
    unfold RP.stopPlay
    cases s
    simp only at hp hse
    simp [hp, hse]

/-- Witness for C6: a finished run at a concrete input leaves
`playing = false`, and `stop_play()` is an identity on the fresh
session. -/
theorem c6_never_stuck_playing_witness :
    ((targetRun ⟨false, true, [], false⟩ none 1 0 1 0).1).playing = false ∧
    RP.stopPlay RP.init = RP.init :=
  ⟨c6_never_stuck_playing.2.2.2.1 ⟨false, true, [], false⟩ none 1 0 1 0 (by decide),
   c6_never_stuck_playing.2.2.2.2.2 RP.init rfl rfl⟩

/-- C7: Suppression-gate correctness.  For every well-bracketed use of
`_suppress_events()` starting from a counter value `c ≥ 0`: the counter
never drops below its starting value (hence stays `≥ 0`), every
emission inside a scope observes a suppressed counter, the counter
returns to exactly its entry value when a scope exits — also when the
body raises — and `is_suppressed()` is true exactly when the counter is
positive, so after the outermost scope over `0` it is false again. -/
theorem c7_suppression_gate (p : SProg) (c : Int) (hc : 0 ≤ c) :
    ((runS p c).2.1 = c) ∧
    (∀ x ∈ (runS p c).1, 0 ≤ x) ∧
    (∀ x ∈ (runS (SProg.scope p) c).1, isSuppressedCount x = true) ∧
    ((runS (SProg.scope p) c).2.1 = c) ∧
    (c = 0 → isSuppressedCount ((runS (SProg.scope p) c).2.1) = false) ∧
    (∀ k : Int, isSuppressedCount k = true ↔ 0 < k) := by
  refine ⟨runS_final p c, ?_, ?_, runS_final (SProg.scope p) c, ?_, ?_⟩
  · intro x hx
    have := runS_obs_ge p c x hx
    omega
  · intro x hx
    rw [runS] at hx
    simp only at hx
    have := runS_obs_ge p (c + 1) x hx
    unfold isSuppressedCount
    simp only [decide_eq_true_eq]
    omega
  · intro hc0
    rw [runS_final (SProg.scope p) c, hc0]
    rfl
  · intro k
    unfold isSuppressedCount
    simp

/-- Witness for C7: one emission nested in two scopes, from counter 0. -/
theorem c7_suppression_gate_witness :
    (runS (SProg.scope (SProg.scope SProg.emit)) 0).2.1 = 0 ∧
    (∀ x ∈ (runS (SProg.scope (SProg.scope SProg.emit)) 0).1, 0 ≤ x) :=
  ⟨(c7_suppression_gate (SProg.scope (SProg.scope SProg.emit)) 0 (by decide)).1,
   (c7_suppression_gate (SProg.scope (SProg.scope SProg.emit)) 0 (by decide)).2.1⟩

/-- C1: Playback scheduling.  The event wait loop blocks in short
cancellable slices exactly until `now ≥ target_time` (and returns at
once on a set signal); an event is only ever performed at an instant
with the signal still unset; each cycle computes a fresh
`cycle_base = now - events[0].time` at its first event, so the first
event of the cycle fires immediately (its scheduled instant is the
cycle start itself) and every event of the cycle is scheduled at
`cycle_base + event.time` in log order, the base never carried over
from the previous cycle. -/
theorem c1_playback_schedule (evs : List Record) (ev0 : Record)
    (rest : List Record) (he : evs = ev0 :: rest) (ht : timesOk evs)
    (N fuel : ℕ) (hN : 0 < N) (hf : N ≤ fuel) (interval t0 : ℚ) :
    (∀ target now : ℚ, waitLoop none target now = some (max now target)) ∧
    (∀ ct target now : ℚ, ct ≤ now → waitLoop (some ct) target now = none) ∧
    (∀ (c : Option ℚ) (base? : Option ℚ) (now : ℚ),
      ∀ p ∈ (runEvents c base? evs now).trace, sigSet c p.2 = false) ∧
    (∀ s : ℚ, (schedTimes (s - tval ev0) s (evs.map tval)).head? = some s) ∧
    (∃ endT trace,
      runCycles none (N : Int) interval evs fuel 0 t0 = PlayRes.finished endT trace ∧
      trace.length = N ∧ cyclesOk evs (tval ev0) (evs.map tval) trace t0) := by
  refine ⟨waitLoop_none, ?_, ?_, ?_, ?_⟩
  · intro ct target now hct
    exact waitLoop_cancelled (some ct) target now (by simp [sigSet, hct])
  · intro c base? now
    exact runEvents_trace_not_set c evs base? now
  · intro s
    subst he
    have hs : s - tval ev0 + tval ev0 = s := by ring
    simp [schedTimes, hs]
  · subst he
    exact runCycles_none_char ev0 rest ht N hN interval N fuel 0 t0 (by omega) hf

/-- Witness for C1 at a one-event log, one cycle. -/
theorem c1_playback_schedule_witness :
    waitLoop none 7 3 = some (max 3 7) ∧
    (schedTimes ((4 : ℚ) - tval [("type", JVal.str "mouse_move"), ("time", JVal.num 0),
        ("x", JVal.num 5), ("y", JVal.num 6)]) 4
      ([[("type", JVal.str "mouse_move"), ("time", JVal.num 0),
        ("x", JVal.num 5), ("y", JVal.num 6)]].map tval)).head? = some 4 :=
  ⟨(c1_playback_schedule
      [[("type", JVal.str "mouse_move"), ("time", JVal.num 0),
        ("x", JVal.num 5), ("y", JVal.num 6)]]
      [("type", JVal.str "mouse_move"), ("time", JVal.num 0),
        ("x", JVal.num 5), ("y", JVal.num 6)] [] rfl (by decide)
      1 1 (by decide) (by decide) 0 0).1 7 3,
   (c1_playback_schedule
      [[("type", JVal.str "mouse_move"), ("time", JVal.num 0),
        ("x", JVal.num 5), ("y", JVal.num 6)]]
      [("type", JVal.str "mouse_move"), ("time", JVal.num 0),
        ("x", JVal.num 5), ("y", JVal.num 6)] [] rfl (by decide)
      1 1 (by decide) (by decide) 0 0).2.2.2.1 4⟩

/-- C5: Repeat semantics.  `repeat_count ≤ 0` keeps the loop guard true
forever: with no cancellation the run only ever stops by fuel
exhaustion (it never finishes), and a set stop signal cancels it at the
next slice; a positive `repeat_count = N` finishes after exactly `N`
full cycles over the log and the `finally` then leaves the session not
Playing with no external stop. -/
theorem c5_repeat_semantics (evs : List Record) (ev0 : Record)
    (rest : List Record) (he : evs = ev0 :: rest) (ht : timesOk evs)
    (interval t0 : ℚ) :
    (∀ repeatCount : Int, repeatCount ≤ 0 →
      ∀ cyclesDone : ℕ, loopGuard repeatCount cyclesDone = true) ∧
    (∀ repeatCount : Int, repeatCount ≤ 0 → ∀ (fuel cyclesDone : ℕ), ∃ trs,
      runCycles none repeatCount interval evs fuel cyclesDone t0 = PlayRes.fuelOut trs) ∧
    (∀ (repeatCount : Int) (ct : ℚ), ct ≤ t0 → ∀ (fuel cyclesDone : ℕ), 0 < fuel →
      loopGuard repeatCount cyclesDone = true →
      runCycles (some ct) repeatCount interval evs fuel cyclesDone t0 =
        PlayRes.cancelled [[]]) ∧
    (∀ N fuel : ℕ, 0 < N → N ≤ fuel → ∃ endT trace,
      runCycles none (N : Int) interval evs fuel 0 t0 = PlayRes.finished endT trace ∧
      trace.length = N ∧ ∀ tr ∈ trace, tr.length = evs.length) ∧
    (∀ (N fuel : ℕ) (s : RP), 0 < N → N ≤ fuel → s.events = evs →
      ((targetRun s none (N : Int) interval fuel t0).1).playing = false) := by
  refine ⟨?_, ?_, ?_, ?_, ?_⟩
  · intro repeatCount hrep cyclesDone
    unfold loopGuard
    simp [hrep]
  · intro repeatCount hrep fuel cyclesDone
    subst he
    exact runCycles_infinite ev0 rest ht repeatCount hrep interval fuel cyclesDone t0
  · intro repeatCount ct hct fuel cyclesDone hf hguard
    exact runCycles_cancel_immediate evs (by rw [he]; simp) repeatCount interval
      fuel cyclesDone hf hguard t0 ct hct
  · intro N fuel hN hf
    subst he
    obtain ⟨endT, trace, hrun, hlen, hok⟩ :=
      runCycles_none_char ev0 rest ht N hN interval N fuel 0 t0 (by omega) hf
    exact ⟨endT, trace, hrun, hlen,
      cyclesOk_lengths (ev0 :: rest) (tval ev0) trace t0 hok⟩
  · intro N fuel s hN hf hsev
    subst he
    obtain ⟨endT, trace, hrun, _, _⟩ :=
      runCycles_none_char ev0 rest ht N hN interval N fuel 0 t0 (by omega) hf
    unfold targetRun
    rw [hsev, hrun]
    rfl

/-- Witness for C5 at a one-event log: the infinite guard stays true
and the loop runs out of fuel rather than finishing, while `N = 1`
completes. -/
theorem c5_repeat_semantics_witness :
    loopGuard 0 1000 = true ∧
    (∃ trs, runCycles none 0 0
      [[("type", JVal.str "mouse_move"), ("time", JVal.num 0),
        ("x", JVal.num 5), ("y", JVal.num 6)]] 3 0 0 = PlayRes.fuelOut trs) ∧
    ((targetRun ⟨false, true,
      [[("type", JVal.str "mouse_move"), ("time", JVal.num 0),
        ("x", JVal.num 5), ("y", JVal.num 6)]], false⟩
      none 1 0 1 0).1).playing = false :=
  ⟨(c5_repeat_semantics
      [[("type", JVal.str "mouse_move"), ("time", JVal.num 0),
        ("x", JVal.num 5), ("y", JVal.num 6)]]
      [("type", JVal.str "mouse_move"), ("time", JVal.num 0),
        ("x", JVal.num 5), ("y", JVal.num 6)] [] rfl (by decide) 0 0).1
      0 (by decide) 1000,
   (c5_repeat_semantics
      [[("type", JVal.str "mouse_move"), ("time", JVal.num 0),
        ("x", JVal.num 5), ("y", JVal.num 6)]]
      [("type", JVal.str "mouse_move"), ("time", JVal.num 0),
        ("x", JVal.num 5), ("y", JVal.num 6)] [] rfl (by decide) 0 0).2.1
      0 (by decide) 3 0,
   (c5_repeat_semantics
      [[("type", JVal.str "mouse_move"), ("time", JVal.num 0),
        ("x", JVal.num 5), ("y", JVal.num 6)]]
      [("type", JVal.str "mouse_move"), ("time", JVal.num 0),
        ("x", JVal.num 5), ("y", JVal.num 6)] [] rfl (by decide) 0 0).2.2.2.2
      1 1 ⟨false, true,
        [[("type", JVal.str "mouse_move"), ("time", JVal.num 0),
          ("x", JVal.num 5), ("y", JVal.num 6)]], false⟩
      (by decide) (by decide) rfl⟩

/-- C10: `save`/`load` perform no session-state check.  In every state,
including Recording and Playing, `load` replaces the log wholesale with
the decoded file content and `save` writes out the current log; neither
raises any error, in particular not `InvalidState`. -/
theorem c10_save_load_no_state_check (s : RP) (recs : List Record) :
    RP.load s recs = ⟨{ s with events := recs }, Except.ok ()⟩ ∧
    (RP.load s recs).state.events = recs ∧
    (RP.load s recs).state.recording = s.recording ∧
    (RP.load s recs).state.playing = s.playing ∧
    RP.save s = ⟨s, Except.ok s.events⟩ ∧
    (∀ e, (RP.load s recs).result ≠ Except.error e) ∧
    (∀ e, (RP.save s).result ≠ Except.error e) := by
  refine ⟨rfl, rfl, rfl, rfl, rfl, ?_, ?_⟩ <;> intro e <;> simp [RP.load, RP.save]

end Claims

end AutoClicker
